import Mathlib

/-!
Verification development for the resilient JSON-payload extractor in `main.go`
(functions `extractJSONFromText` and `extractCarJSON`).

Strings are embedded as `List Char`.  The Go code operates on UTF-8 bytes, but
every byte position it inspects (`'{'`, `'['`, `'}'`, `']'`, backticks) is an
ASCII byte, which in valid UTF-8 can only occur as a whole character, so the
character-level embedding is faithful for valid UTF-8 inputs.
-/

deriving instance DecidableEq for Except

/-- Modelled from Go `unicode.IsSpace` (the cutset of `strings.TrimSpace`):
ASCII whitespace plus the Unicode White_Space code points. -/
def goSpace (c : Char) : Bool :=
  c = ' ' || (9 ≤ c.toNat && c.toNat ≤ 13) || c.toNat = 0x85 || c.toNat = 0xA0 ||
  c.toNat = 0x1680 || (0x2000 ≤ c.toNat && c.toNat ≤ 0x200A) ||
  c.toNat = 0x2028 || c.toNat = 0x2029 || c.toNat = 0x202F ||
  c.toNat = 0x205F || c.toNat = 0x3000

/-- Modelled from Go `strings.TrimSpace`: drop leading and trailing whitespace. -/
def trimSpace (cs : List Char) : List Char :=
  ((cs.dropWhile goSpace).reverse.dropWhile goSpace).reverse

/-- JSON insignificant whitespace as accepted by Go `encoding/json`. -/
def jsonWS (c : Char) : Bool :=
  c = ' ' || c = '\t' || c = '\n' || c = '\r'

/-- Drop leading JSON whitespace. -/
def skipWS (cs : List Char) : List Char := cs.dropWhile jsonWS

/-- A decoded JSON value, as produced by Go `json.Unmarshal` into `interface{}`.
Object fields are kept as an association list in source order; Go stores them in
a `map[string]interface{}` (order lost, duplicate keys overwritten by the last
occurrence), which is modelled where it matters: `dedupRec` for duplicate keys,
the `Reorder` relation for the unspecified map iteration order, and sorting in
`mIndent` for marshalling.  Numbers keep their source lexeme (Go decodes to
`float64`; no claim exercises non-trivial float behaviour). -/
inductive JValue where
  | null
  | bool (b : Bool)
  | num (lexeme : List Char)
  | str (s : List Char)
  | arr (elems : List JValue)
  | obj (fields : List (List Char × JValue))

/-- Hexadecimal digit test, as in JSON `\uXXXX` escapes. -/
def isHexDigit (c : Char) : Bool :=
  c.isDigit || ('a' ≤ c && c ≤ 'f') || ('A' ≤ c && c ≤ 'F')

/-- Numeric value of a hexadecimal digit. -/
def hexVal (c : Char) : Nat :=
  if c.isDigit then c.toNat - '0'.toNat
  else if 'a' ≤ c && c ≤ 'f' then c.toNat - 'a'.toNat + 10
  else c.toNat - 'A'.toNat + 10

/-- Single-character JSON escapes accepted by Go `encoding/json`. -/
def escCharOf (c : Char) : Option Char :=
  if c = '"' then some '"'
  else if c = '\\' then some '\\'
  else if c = '/' then some '/'
  else if c = 'b' then some '\x08'
  else if c = 'f' then some '\x0C'
  else if c = 'n' then some '\n'
  else if c = 'r' then some '\r'
  else if c = 't' then some '\t'
  else none

/-- Modelled from Go `encoding/json` string decoding, after the opening quote.
Returns the decoded characters and the remainder after the closing quote.
Raw control characters are rejected; `\uXXXX` escapes outside the scalar range
decode to U+FFFD as in Go (Go additionally combines valid surrogate pairs; no
claim exercises string content containing surrogate escapes). -/
def parseStringBody : List Char → Option (List Char × List Char)
  | '"' :: rest => some ([], rest)
  | '\\' :: 'u' :: h1 :: h2 :: h3 :: h4 :: rest =>
    if isHexDigit h1 && isHexDigit h2 && isHexDigit h3 && isHexDigit h4 then
      let n := hexVal h1 * 4096 + hexVal h2 * 256 + hexVal h3 * 16 + hexVal h4
      let c := if n < 0xD800 || 0xE000 ≤ n then Char.ofNat n else '�'
      (parseStringBody rest).map (fun p => (c :: p.1, p.2))
    else none
  | '\\' :: e :: rest =>
    match escCharOf e with
    | some c => (parseStringBody rest).map (fun p => (c :: p.1, p.2))
    | none => none
  | c :: rest =>
    if c.toNat < 0x20 then none
    else (parseStringBody rest).map (fun p => (c :: p.1, p.2))
  | [] => none

/-- One or more decimal digits. -/
def digits1 (cs : List Char) : Option (List Char × List Char) :=
  let p := cs.span Char.isDigit
  if p.1.isEmpty then none else some (p.1, p.2)

/-- Modelled from the JSON number grammar enforced by Go `encoding/json`:
`-? (0 | [1-9][0-9]*) ('.' [0-9]+)? ([eE] [+-]? [0-9]+)?`.  Returns the lexeme
and the remainder. -/
def parseNum (cs : List Char) : Option (List Char × List Char) := do
  let (sgn, cs1) :=
    match cs with
    | '-' :: r => ((['-'] : List Char), r)
    | _ => ([], cs)
  let (ip, cs2) ←
    match cs1 with
    | '0' :: r => some ((['0'] : List Char), r)
    | c :: _ => if c.isDigit then digits1 cs1 else none
    | [] => none
  let (fp, cs3) ←
    match cs2 with
    | '.' :: r => (digits1 r).map (fun p => ('.' :: p.1, p.2))
    | _ => some (([] : List Char), cs2)
  let (ep, cs4) ←
    match cs3 with
    | c :: r =>
      if c = 'e' || c = 'E' then
        match r with
        | s :: r2 =>
          if s = '+' || s = '-' then (digits1 r2).map (fun p => (c :: s :: p.1, p.2))
          else (digits1 r).map (fun p => (c :: p.1, p.2))
        | [] => none
      else some (([] : List Char), cs3)
    | [] => some ([], cs3)
  some (sgn ++ ip ++ fp ++ ep, cs4)

mutual

/-- Modelled from Go `encoding/json` value parsing (fuel-indexed recursive
descent; `jsonDecode` supplies enough fuel for any input). -/
def parseVal : Nat → List Char → Option (JValue × List Char)
  | 0, _ => none
  | Nat.succ fuel, cs =>
    match cs with
    | 'n' :: 'u' :: 'l' :: 'l' :: rest => some (.null, rest)
    | 't' :: 'r' :: 'u' :: 'e' :: rest => some (.bool true, rest)
    | 'f' :: 'a' :: 'l' :: 's' :: 'e' :: rest => some (.bool false, rest)
    | '"' :: rest => (parseStringBody rest).map (fun p => (.str p.1, p.2))
    | '[' :: rest =>
      match skipWS rest with
      | ']' :: r2 => some (.arr [], r2)
      | r1 => (parseElems fuel r1).map (fun p => (.arr p.1, p.2))
    | '\x7b' :: rest =>
      match skipWS rest with
      | '\x7d' :: r2 => some (.obj [], r2)
      | r1 => (parseFields fuel r1).map (fun p => (.obj p.1, p.2))
    | _ => (parseNum cs).map (fun p => (.num p.1, p.2))

/-- Array elements after the opening bracket (first element expected). -/
def parseElems : Nat → List Char → Option (List JValue × List Char)
  | 0, _ => none
  | Nat.succ fuel, cs => do
    let (v, r) ← parseVal fuel cs
    match skipWS r with
    | ',' :: r2 => (parseElems fuel (skipWS r2)).map (fun p => (v :: p.1, p.2))
    | ']' :: r2 => some ([v], r2)
    | _ => none

/-- Object members after the opening brace (first member expected). -/
def parseFields : Nat → List Char → Option (List (List Char × JValue) × List Char)
  | 0, _ => none
  | Nat.succ fuel, cs =>
    match cs with
    | '"' :: rest => do
      let (k, r) ← parseStringBody rest
      match skipWS r with
      | ':' :: r2 => do
        let (v, r3) ← parseVal fuel (skipWS r2)
        match skipWS r3 with
        | ',' :: r5 => (parseFields fuel (skipWS r5)).map (fun p => ((k, v) :: p.1, p.2))
        | '\x7d' :: r5 => some ([(k, v)], r5)
        | _ => none
      | _ => none
    | _ => none

end

/-- Modelled from Go `json.Unmarshal(data, &v)` for `v interface{}`: one JSON
value, surrounded by optional whitespace, nothing else.  `none` means Unmarshal
returns an error. -/
def jsonDecode (cs : List Char) : Option JValue :=
  match parseVal (2 * cs.length + 2) (skipWS cs) with
  | some (v, rest) => if skipWS rest = [] then some v else none
  | none => none

/-- Whether `json.Unmarshal` on these characters succeeds. -/
def jsonValidL (cs : List Char) : Bool := (jsonDecode cs).isSome

/-- Whether the characters parse as a JSON object or array (as opposed to a
bare scalar). -/
def isObjOrArr (cs : List Char) : Bool :=
  match jsonDecode cs with
  | some (.obj _) => true
  | some (.arr _) => true
  | _ => false

/-- Find the text after the first occurrence of three backticks, as the Go
regexp engine anchors the fence match at the leftmost possible start. -/
def findFence : List Char → Option (List Char)
  | '\x60' :: '\x60' :: '\x60' :: rest => some rest
  | _ :: cs => findFence cs
  | [] => none

/-- Content up to (excluding) the next occurrence of three backticks. -/
def takeToFence : List Char → Option (List Char)
  | '\x60' :: '\x60' :: '\x60' :: _ => some []
  | c :: cs => (takeToFence cs).map (c :: ·)
  | [] => none

/-- Whitespace class of the Go regexp `\s`: tab, newline, form feed, carriage
return, space. -/
def reWS (c : Char) : Bool :=
  c = '\t' || c = '\n' || c = '\x0C' || c = '\r' || c = ' '

/-- Modelled from the Go regexp
`(?s)` three backticks, `(?:json\s*)?`, lazy capture, three backticks
of `extractJSONFromText`: the submatch of the leftmost match.  Leftmost-first
semantics reduce to: after the first opening fence, optionally consume a
literal `json` tag and following `\s*`, and capture up to the next closing
fence; if no closing fence exists after the first opening fence, no later
start can succeed either (backticks never occur inside the skipped tag or
whitespace), so the whole search fails. -/
def fenceCandidate (s : List Char) : Option (List Char) :=
  match findFence s with
  | none => none
  | some rest =>
    let rest2 :=
      if rest.take 4 = ['j', 's', 'o', 'n'] then (rest.drop 4).dropWhile reWS else rest
    takeToFence rest2

/-- Modelled from Go `strings.IndexAny(s, "{[")`: index of the first opening
bracket, if any. -/
def indexAnyBr : List Char → Option Nat
  | [] => none
  | c :: rest =>
    if c = '\x7b' || c = '[' then some 0 else (indexAnyBr rest).map (· + 1)

/-- One iteration of the backward bracket scan of `extractJSONFromText`: at
position `e`, if the character closes the bracket opened at `start`, trim the
substring `[start, e]` and keep it when it parses as JSON. -/
def tryEnd (s : List Char) (start e : Nat) : Option (List Char) :=
  if (s.getD e ' ' = '\x7d' && s.getD start ' ' = '\x7b') ||
     (s.getD e ' ' = ']' && s.getD start ' ' = '[') then
    let cand := trimSpace ((s.drop start).take (e + 1 - start))
    if jsonValidL cand then some cand else none
  else none

/-- Modelled from the `for end := len(s) - 1; end > start; end--` loop of
`extractJSONFromText`: try candidate end positions downwards, first hit wins. -/
def scanEnds (s : List Char) (start : Nat) : Nat → Option (List Char)
  | 0 => none
  | Nat.succ e =>
    if Nat.succ e ≤ start then none
    else
      match tryEnd s start (Nat.succ e) with
      | some c => some c
      | none => scanEnds s start e

/-- Strategy 3 of `extractJSONFromText` (lines 175-190 of `main.go`): find the
first opening bracket and brute-force matching closing positions backwards. -/
def step3 (s : List Char) : Except String (List Char) :=
  match indexAnyBr s with
  | none => Except.error "no JSON object/array start found in text"
  | some start =>
    match scanEnds s start (s.length - 1) with
    | some cand => Except.ok cand
    | none => Except.error "couldn't extract valid JSON substring from assistant text"

/-- Modelled from `extractJSONFromText` in `main.go`: trim, try the whole text,
then a fenced block, then the backward bracket scan. -/
def extractJSONFromText (s0 : List Char) : Except String (List Char) :=
  let s := trimSpace s0
  if jsonValidL s then Except.ok s
  else
    match fenceCandidate s with
    | some m =>
      let candidate := trimSpace m
      if jsonValidL candidate then Except.ok candidate else step3 s
    | none => step3 s

/-- Lowercase hexadecimal digit, as emitted by Go's JSON encoder. -/
def hexDigitChar (n : Nat) : Char :=
  if n < 10 then Char.ofNat ('0'.toNat + n) else Char.ofNat ('a'.toNat + n - 10)

/-- Modelled from Go `encoding/json` string encoding with the default HTML
escaping: quote, backslash, newline, carriage return, tab, other control
characters, `<`, `>`, `&`, and U+2028/U+2029 are escaped. -/
def escapeOut (c : Char) : List Char :=
  if c = '"' then ['\\', '"']
  else if c = '\\' then ['\\', '\\']
  else if c = '\n' then ['\\', 'n']
  else if c = '\r' then ['\\', 'r']
  else if c = '\t' then ['\\', 't']
  else if c.toNat < 0x20 || c = '<' || c = '>' || c = '&' then
    ['\\', 'u', '0', '0', hexDigitChar (c.toNat / 16), hexDigitChar (c.toNat % 16)]
  else if c.toNat = 0x2028 || c.toNat = 0x2029 then
    ['\\', 'u', '2', '0', '2', hexDigitChar (c.toNat % 16)]
  else [c]

/-- Encode a decoded string back to JSON source characters. -/
def escapeStr : List Char → List Char
  | [] => []
  | c :: rest => escapeOut c ++ escapeStr rest

/-- Modelled from Go float64-to-JSON formatting, restricted to what the claims
exercise: an integral lexeme below 2^53 in magnitude round-trips through
float64 unchanged, so it is emitted as-is.  Non-integral lexemes are passed
through; Go would re-format them through float64, which no claim exercises. -/
def fmtNum (lexeme : List Char) : List Char := lexeme

/-- Byte-wise (here: code-point-wise, equivalent for UTF-8) key order used by
Go when marshalling a `map[string]interface{}`. -/
def keyLe : List Char → List Char → Bool
  | [], _ => true
  | _ :: _, [] => false
  | a :: as, b :: bs => if a = b then keyLe as bs else decide (a < b)

/-- Insert one field into a key-sorted field list. -/
def insertField (p : List Char × JValue) :
    List (List Char × JValue) → List (List Char × JValue)
  | [] => [p]
  | q :: rest => if keyLe p.1 q.1 then p :: q :: rest else q :: insertField p rest

/-- Sort fields by key, modelling Go's sorted map marshalling. -/
def sortFields : List (List Char × JValue) → List (List Char × JValue)
  | [] => []
  | p :: rest => insertField p (sortFields rest)

/-- Keep only the last occurrence of each key, modelling the overwrite
behaviour of decoding duplicate JSON keys into a Go map. -/
def dedupFields : List (List Char × JValue) → List (List Char × JValue)
  | [] => []
  | (k, v) :: rest =>
    if rest.any (fun q => q.1 == k) then dedupFields rest
    else (k, v) :: dedupFields rest

/-- Indentation prefix for depth `d` under `MarshalIndent(v, "", "  ")`. -/
def indentOf (d : Nat) : List Char := List.replicate (2 * d) ' '

mutual

/-- Canonical form of a value decoded into Go maps: inside every object,
duplicate keys are dropped (last occurrence wins, as when decoding into a
`map[string]interface{}`) and the remaining fields are sorted by key (as Go
marshals maps). -/
def sortRec : JValue → JValue
  | .obj fs => .obj (sortFields (dedupFields (sortRecFields fs)))
  | .arr es => .arr (sortRecElems es)
  | v => v

/-- Canonicalize the values of a field list. -/
def sortRecFields : List (List Char × JValue) → List (List Char × JValue)
  | [] => []
  | (k, v) :: rest => (k, sortRec v) :: sortRecFields rest

/-- Canonicalize the elements of a sequence. -/
def sortRecElems : List JValue → List JValue
  | [] => []
  | v :: rest => sortRec v :: sortRecElems rest

end

mutual

/-- Modelled from Go `json.MarshalIndent(v, "", "  ")` on a canonical value
(`sortRec` has already applied the Go-map key de-duplication and ordering). -/
def mIndent : Nat → JValue → List Char
  | _, .null => 'n' :: 'u' :: 'l' :: 'l' :: []
  | _, .bool true => 't' :: 'r' :: 'u' :: 'e' :: []
  | _, .bool false => 'f' :: 'a' :: 'l' :: 's' :: 'e' :: []
  | _, .num lx => fmtNum lx
  | _, .str s => '"' :: (escapeStr s ++ ['"'])
  | d, .arr es =>
    if es.isEmpty then ['[', ']']
    else '[' :: '\n' :: (mIndentElems d es ++ '\n' :: (indentOf d ++ [']']))
  | d, .obj fs =>
    if fs.isEmpty then ['\x7b', '\x7d']
    else '\x7b' :: '\n' :: (mIndentFields d fs ++ '\n' :: (indentOf d ++ ['\x7d']))

/-- Array elements, one per line, comma separated. -/
def mIndentElems : Nat → List JValue → List Char
  | _, [] => []
  | d, [v] => indentOf (d + 1) ++ mIndent (d + 1) v
  | d, v :: rest =>
    indentOf (d + 1) ++ (mIndent (d + 1) v ++ ',' :: '\n' :: mIndentElems d rest)

/-- Object members, one per line, `"key": value`, comma separated. -/
def mIndentFields : Nat → List (List Char × JValue) → List Char
  | _, [] => []
  | d, [(k, v)] =>
    indentOf (d + 1) ++ ('"' :: (escapeStr k ++ '"' :: ':' :: ' ' :: mIndent (d + 1) v))
  | d, (k, v) :: rest =>
    indentOf (d + 1) ++
      ('"' :: (escapeStr k ++ '"' :: ':' :: ' ' :: (mIndent (d + 1) v ++ ',' :: '\n' :: mIndentFields d rest)))

end

/-- Modelled from Go `json.MarshalIndent(tmp, "", "  ")` where `tmp` is an
`interface{}` freshly decoded from JSON: nested objects are Go maps, hence
de-duplicated and key-sorted before emission. -/
def marshalIndentGo (v : JValue) : List Char := mIndent 0 (sortRec v)

/-- The candidate test of the generic walk in `extractCarJSON`: a mapping entry
whose key is literally `text` and whose value is a string with non-empty
trimmed content. -/
def asText (k : List Char) (v : JValue) : Option (List Char) :=
  match v with
  | .str s => if k = "text".data ∧ trimSpace s ≠ [] then some s else none
  | _ => none

mutual

/-- Modelled from the recursive `walk` closure of `extractCarJSON` (lines
211-240 of `main.go`): depth-first search for the first non-empty `text`
string, short-circuiting on the first hit.  The Go code ranges over a
`map[string]interface{}`, whose iteration order is unspecified by the Go
language; `walk` fixes the as-parsed field order as one admissible execution,
and the `Reorder` relation below captures the other admissible orders. -/
def walk : JValue → Option (List Char)
  | .obj fs => walkFields fs
  | .arr es => walkElems es
  | _ => none

/-- Walk the entries of a mapping in the given order. -/
def walkFields : List (List Char × JValue) → Option (List Char)
  | [] => none
  | (k, v) :: rest =>
    match asText k v with
    | some s => some s
    | none =>
      match walk v with
      | some s => some s
      | none => walkFields rest

/-- Walk the elements of a sequence in natural order. -/
def walkElems : List JValue → Option (List Char)
  | [] => none
  | v :: rest =>
    match walk v with
    | some s => some s
    | none => walkElems rest

end

mutual

/-- All candidate `text` strings of a value, in depth-first as-parsed order;
`walk` returns the head of this list. -/
def texts : JValue → List (List Char)
  | .obj fs => textsFields fs
  | .arr es => textsElems es
  | _ => []

/-- Candidates contributed by a field list. -/
def textsFields : List (List Char × JValue) → List (List Char)
  | [] => []
  | p :: rest => entryTexts p ++ textsFields rest

/-- Candidates contributed by one mapping entry. -/
def entryTexts : List Char × JValue → List (List Char)
  | (k, v) => (match asText k v with | some s => [s] | none => []) ++ texts v

/-- Candidates contributed by a sequence. -/
def textsElems : List JValue → List (List Char)
  | [] => []
  | v :: rest => texts v ++ textsElems rest

end

mutual

/-- Two decoded values that differ only in the iteration order of mappings:
Go's map iteration order is unspecified, so any `Reorder`-variant of the
decoded envelope describes an admissible run of the generic walk. -/
def Reorder : JValue → JValue → Prop
  | .arr es, .arr es2 => ReorderElems es es2
  | .obj fs, .obj fs2 => ∃ fs1, ReorderFields fs fs1 ∧ fs1.Perm fs2
  | v, w => v = w

/-- Pointwise reorder of sequence elements (order preserved). -/
def ReorderElems : List JValue → List JValue → Prop
  | [], [] => True
  | v :: l, w :: m => Reorder v w ∧ ReorderElems l m
  | _, _ => False

/-- Pointwise reorder of mapping entries (keys unchanged, values reordered). -/
def ReorderFields : List (List Char × JValue) → List (List Char × JValue) → Prop
  | [], [] => True
  | (k, v) :: l, (k2, w) :: m => k = k2 ∧ Reorder v w ∧ ReorderFields l m
  | _, _ => False

end

mutual

/-- Recursive key de-duplication, modelling that every nested JSON object
decoded into `interface{}` becomes a Go map (last duplicate key wins). -/
def dedupRec : JValue → JValue
  | .obj fs => .obj (dedupRecFields fs)
  | .arr es => .arr (dedupRecElems es)
  | v => v

/-- De-duplicate a field list and recurse into the kept values. -/
def dedupRecFields : List (List Char × JValue) → List (List Char × JValue)
  | [] => []
  | (k, v) :: rest =>
    if rest.any (fun q => q.1 == k) then dedupRecFields rest
    else (k, dedupRec v) :: dedupRecFields rest

/-- De-duplicate inside every sequence element. -/
def dedupRecElems : List JValue → List JValue
  | [] => []
  | v :: rest => dedupRec v :: dedupRecElems rest

end

/-- Modelled from Go `json.Unmarshal` into a `string` struct field: a JSON
string or JSON null succeeds (null leaves the zero value ""), anything else is
a type error. -/
def decodeStr : JValue → Option (List Char)
  | .str s => some s
  | .null => some []
  | _ => none

/-- Modelled from Go `json.Unmarshal` into the anonymous content-part struct
`{ Type string; Text string }` of `extractCarJSON`: unknown keys are ignored,
type mismatches anywhere are errors. -/
def decodeCPart : JValue → Option (List Char × List Char)
  | .null => some ([], [])
  | .obj fs =>
    fs.foldlM
      (fun acc kv =>
        if kv.1 == "type".data then (decodeStr kv.2).map (fun s => (s, acc.2))
        else if kv.1 == "text".data then (decodeStr kv.2).map (fun s => (acc.1, s))
        else some acc)
      ([], [])
  | _ => none

/-- Modelled from Go `json.Unmarshal` into `[]CPart` (JSON null becomes nil). -/
def decodeContents : JValue → Option (List (List Char × List Char))
  | .null => some []
  | .arr es => es.mapM decodeCPart
  | _ => none

/-- Modelled from Go `json.Unmarshal` into the anonymous output-item struct
`{ Content []CPart }`. -/
def decodeOutputItem : JValue → Option (List (List Char × List Char))
  | .null => some []
  | .obj fs =>
    fs.foldlM
      (fun acc kv => if kv.1 == "content".data then decodeContents kv.2 else some acc)
      []
  | _ => none

/-- Modelled from Go `json.Unmarshal` into `[]OutputItem`. -/
def decodeOutputs : JValue → Option (List (List (List Char × List Char)))
  | .null => some []
  | .arr es => es.mapM decodeOutputItem
  | _ => none

/-- Modelled from the typed `json.Unmarshal(respBytes, &apiResp)` of
`extractCarJSON` (lines 195-204 of `main.go`), given an already
syntax-checked value: the envelope must be a JSON object (or null); unknown
keys are ignored; the `output` key, when present, must decode as
`[]struct{ Content []struct{ Type, Text string } }`. -/
def decodeTyped (v : JValue) : Option (List (List (List Char × List Char))) :=
  match v with
  | .null => some []
  | .obj fs =>
    fs.foldlM
      (fun acc kv => if kv.1 == "output".data then decodeOutputs kv.2 else some acc)
      []
  | _ => none

/-- First content part of one output item whose trimmed text is non-empty
(the inner loop of lines 259-265 of `main.go`); `[]` when there is none. -/
def firstText : List (List Char × List Char) → List Char
  | [] => []
  | c :: rest => if trimSpace c.2 = [] then firstText rest else c.2

/-- Modelled from the `rawText` double loop of `extractCarJSON` (lines
257-269 of `main.go`): first output item owning a non-empty text part wins,
and its first such part is returned untrimmed. -/
def typedLocate : List (List (List Char × List Char)) → List Char
  | [] => []
  | o :: rest =>
    let r := firstText o
    if r = [] then typedLocate rest else r

/-- Shared tail of both branches of `extractCarJSON` (lines 245-254 and
275-290 of `main.go`): extract a JSON substring from the located text,
re-decode it and pretty-print it.  The result mirrors Go's
`([]byte, error)` pair: exactly one side is set. -/
def finishText (rawText : List Char) : Option (List Char) × Option String :=
  match extractJSONFromText rawText with
  | .error e => (none, some ("failed to extract JSON from assistant text: " ++ e))
  | .ok jsonStr =>
    match jsonDecode jsonStr with
    | none => (none, some "assistant text does not contain valid JSON")
    | some tmp => (some (marshalIndentGo tmp), none)

/-- Modelled from `extractCarJSON` in `main.go`, returning the Go
`([]byte, error)` pair.  The typed parse is attempted first; only when it
errors (syntax error or type mismatch) does the code fall back to the generic
`map[string]interface{}` parse and the recursive `text` search; a non-object
envelope fails both parses. -/
def extractCarJSON (respBytes : List Char) : Option (List Char) × Option String :=
  match jsonDecode respBytes with
  | none => (none, some "failed to parse OpenAI response")
  | some v =>
    match decodeTyped v with
    | some outs =>
      let rawText := typedLocate outs
      if rawText = [] then
        (none, some "no output content with text found in response (maybe only reasoning entries present)")
      else finishText rawText
    | none =>
      match v with
      | .obj _ =>
        match walk (dedupRec v) with
        | none => (none, some "no output text found in response (generic parse)")
        | some found => finishText found
      | _ => (none, some "failed to parse OpenAI response")

/-- A successful bracket-scan attempt yields the trimmed substring `[start, e]`
and that substring is valid JSON. -/
theorem tryEnd_some {s : List Char} {start e : Nat} {c : List Char}
    (h : tryEnd s start e = some c) :
    c = trimSpace ((s.drop start).take (e + 1 - start)) ∧ jsonValidL c = true := by
  unfold tryEnd at h
  split at h
  · by_cases hv : jsonValidL (trimSpace ((s.drop start).take (e + 1 - start))) = true
    · simp only [hv, if_true] at h
      exact ⟨(Option.some.inj h).symm, by rw [← Option.some.inj h]; exact hv⟩
    · simp [hv] at h
  · exact absurd h (by simp)

/-- Soundness of the backward scan: the returned candidate comes from the
largest end position not exceeding the starting one whose attempt succeeds;
every larger attempted end position fails. -/
theorem scanEnds_sound : ∀ (e : Nat) (s : List Char) (start : Nat) (c : List Char),
    scanEnds s start e = some c →
    ∃ i, start < i ∧ i ≤ e ∧ tryEnd s start i = some c ∧
      ∀ j, i < j → j ≤ e → tryEnd s start j = none := by
  intro e
  induction e with
  | zero => intro s start c h; simp [scanEnds] at h
  | succ e ih =>
    intro s start c h
    rw [scanEnds] at h
    by_cases hle : e + 1 ≤ start
    · simp [hle] at h
    · simp only [hle, if_false] at h
      cases htry : tryEnd s start (e + 1) with
      | some c2 =>
        rw [htry] at h
        simp only [Option.some.injEq] at h
        subst h
        exact ⟨e + 1, by omega, Nat.le_refl _, htry, fun j h1 h2 => by omega⟩
      | none =>
        rw [htry] at h
        obtain ⟨i, hi1, hi2, hi3, hi4⟩ := ih s start c h
        refine ⟨i, hi1, by omega, hi3, ?_⟩
        intro j hj1 hj2
        rcases Nat.lt_or_ge j (e + 1) with hj | hj
        · exact hi4 j hj1 (by omega)
        · have hje : j = e + 1 := by omega
          rw [hje]; exact htry

/-- Any candidate produced by strategy 3 is valid JSON. -/
theorem step3_ok_valid {s c : List Char} (h : step3 s = Except.ok c) :
    jsonValidL c = true := by
  unfold step3 at h
  cases hidx : indexAnyBr s with
  | none => rw [hidx] at h; exact absurd h (by simp)
  | some start =>
    rw [hidx] at h
    dsimp only at h
    cases hscan : scanEnds s start (s.length - 1) with
    | none => rw [hscan] at h; exact absurd h (by simp)
    | some cand =>
      rw [hscan] at h
      simp only [Except.ok.injEq] at h
      subst h
      obtain ⟨i, -, -, hi3, -⟩ := scanEnds_sound _ s start cand hscan
      exact (tryEnd_some hi3).2

/-- Any candidate produced by strategy 3 is the trimmed substring starting at
the first opening bracket. -/
theorem step3_ok_shape {s c : List Char} {start : Nat}
    (hidx : indexAnyBr s = some start) (h : step3 s = Except.ok c) :
    ∃ e, start < e ∧ c = trimSpace ((s.drop start).take (e + 1 - start)) := by
  unfold step3 at h
  rw [hidx] at h
  dsimp only at h
  cases hscan : scanEnds s start (s.length - 1) with
  | none => rw [hscan] at h; exact absurd h (by simp)
  | some cand =>
    rw [hscan] at h
    simp only [Except.ok.injEq] at h
    subst h
    obtain ⟨i, hi1, -, hi3, -⟩ := scanEnds_sound _ s start cand hscan
    exact ⟨i, hi1, (tryEnd_some hi3).1⟩

set_option maxRecDepth 4000

/-- Strategy 1 of `extractJSONFromText`: whenever the trimmed text is valid
JSON, it is returned as-is. -/
theorem extract_whole_text {s : List Char} (h : jsonValidL (trimSpace s) = true) :
    extractJSONFromText s = Except.ok (trimSpace s) := by
  unfold extractJSONFromText
  simp [h]

/-- When strategy 1 fails and the fence capture (if any) is not valid JSON,
`extractJSONFromText` reduces to the bracket scan over the whole trimmed
text. -/
theorem extract_falls_to_step3 {s : List Char}
    (h1 : jsonValidL (trimSpace s) = false)
    (h2 : ∀ m, fenceCandidate (trimSpace s) = some m → jsonValidL (trimSpace m) = false) :
    extractJSONFromText s = step3 (trimSpace s) := by
  unfold extractJSONFromText
  simp only [h1, Bool.false_eq_true, if_false]
  cases hf : fenceCandidate (trimSpace s) with
  | none => rfl
  | some m =>
    dsimp only
    simp [h2 m hf]

/-- Claim C3: in the bracket-matching strategy, candidate end positions are
tried strictly from the end of the text downward, considering only positions
holding the matching closing bracket, and the first (longest) trimmed
substring `[start, end]` that parses as JSON is returned; concretely, for the
input `noise {"a":1} noise2` the output candidate is `{"a":1}`. -/
theorem c3_bracket_scan_longest_first :
    (∀ (e : Nat) (s : List Char) (start : Nat) (c : List Char),
        scanEnds s start e = some c →
        ∃ i, start < i ∧ i ≤ e ∧ tryEnd s start i = some c ∧
          ∀ j, i < j → j ≤ e → tryEnd s start j = none) ∧
    extractJSONFromText "noise \x7b\"a\":1\x7d noise2".data =
      Except.ok "\x7b\"a\":1\x7d".data :=
  ⟨scanEnds_sound, by decide⟩

/-- Witness for C3 at the concrete input: the chosen end position 12 is the
only matching one, and nothing larger succeeds. -/
theorem c3_witness :
    ∃ i, 6 < i ∧ i ≤ 19 ∧
      tryEnd "noise \x7b\"a\":1\x7d noise2".data 6 i = some "\x7b\"a\":1\x7d".data ∧
      ∀ j, i < j → j ≤ 19 → tryEnd "noise \x7b\"a\":1\x7d noise2".data 6 j = none :=
  c3_bracket_scan_longest_first.1 19 "noise \x7b\"a\":1\x7d noise2".data 6
    "\x7b\"a\":1\x7d".data (by decide)

/-- Claim C4: for every text whose whitespace-trimmed form parses as valid
JSON, the extractor returns that trimmed whole text (strategy 1 wins), even
when the text also contains a markdown fence; surrounding whitespace never
prevents this strategy from succeeding. -/
theorem c4_whole_text_priority :
    ∀ s : List Char, jsonValidL (trimSpace s) = true →
      extractJSONFromText s = Except.ok (trimSpace s) :=
  fun _ h => extract_whole_text h

/-- Witness for C4: a text with surrounding whitespace and newlines that also
contains a backtick fence is returned whole (trimmed). -/
theorem c4_witness :
    extractJSONFromText "\n  \x7b\"a\": \"```json x ```\"\x7d \n".data =
      Except.ok (trimSpace "\n  \x7b\"a\": \"```json x ```\"\x7d \n".data) :=
  c4_whole_text_priority "\n  \x7b\"a\": \"```json x ```\"\x7d \n".data (by decide)

/-- Claim C5: for every text containing a triple-backtick fence whose captured
content does not parse as JSON, extraction does not fail at the fence: it
falls through to the bracket-matching strategy applied to the entire original
trimmed text; concretely, a valid JSON object outside the fence is still
recovered. -/
theorem c5_fence_fallthrough :
    (∀ (s m : List Char), jsonValidL (trimSpace s) = false →
        fenceCandidate (trimSpace s) = some m →
        jsonValidL (trimSpace m) = false →
        extractJSONFromText s = step3 (trimSpace s)) ∧
    extractJSONFromText "```confidence high``` \x7b\"a\":1\x7d".data =
      Except.ok "\x7b\"a\":1\x7d".data :=
  ⟨fun _ m h1 h2 h3 =>
    extract_falls_to_step3 h1 (fun m2 hm2 => by rw [h2] at hm2; rwa [← Option.some.inj hm2]),
   by decide⟩

/-- Witness for C5 at the concrete input: the fence captures `confidence
high`, which is not JSON, and the extractor reduces to the bracket scan. -/
theorem c5_witness :
    extractJSONFromText "```confidence high``` \x7b\"a\":1\x7d".data =
      step3 (trimSpace "```confidence high``` \x7b\"a\":1\x7d".data) :=
  c5_fence_fallthrough.1 "```confidence high``` \x7b\"a\":1\x7d".data
    "confidence high".data (by decide) (by decide) (by decide)

/-- Counterexample to claim C6 as stated: the input `42` has a candidate, and
that candidate is a bare number, not an object or array. -/
theorem c6_counterexample :
    extractJSONFromText "42".data = Except.ok "42".data ∧
      isObjOrArr "42".data = false := by decide

/-- Claim C6 (amended): every candidate returned by the extractor is
syntactically valid JSON, but it need not be an object or array: the
whole-text and fenced strategies accept bare scalars. -/
theorem c6_candidates_valid_json :
    ∀ (s c : List Char), extractJSONFromText s = Except.ok c → jsonValidL c = true := by
  intro s c h
  unfold extractJSONFromText at h
  by_cases hv : jsonValidL (trimSpace s) = true
  · simp only [hv, if_true] at h
    rw [← Except.ok.inj h]
    exact hv
  · rw [Bool.not_eq_true] at hv
    simp only [hv, Bool.false_eq_true, if_false] at h
    cases hf : fenceCandidate (trimSpace s) with
    | none => rw [hf] at h; exact step3_ok_valid h
    | some m =>
      rw [hf] at h
      dsimp only at h
      by_cases hm : jsonValidL (trimSpace m) = true
      · simp only [hm, if_true] at h
        rw [← Except.ok.inj h]
        exact hm
      · rw [Bool.not_eq_true] at hm
        simp only [hm, Bool.false_eq_true, if_false] at h
        exact step3_ok_valid h

/-- Witness for the amended C6: the scalar candidate of input `42` is valid
JSON. -/
theorem c6_witness : jsonValidL "42".data = true :=
  c6_candidates_valid_json "42".data "42".data (by decide)

/-- Counterexample to claim C7 as stated: the input `true` contains no brace
and no square bracket, yet the extractor succeeds (whole-text strategy)
instead of returning a NotFound error. -/
theorem c7_counterexample :
    indexAnyBr (trimSpace "true".data) = none ∧
      extractJSONFromText "true".data = Except.ok "true".data := by decide

/-- Claim C7 (amended): for every text with no `{` and no `[` on which the
whole-text and fence strategies also fail (such as `I cannot determine this
car.`), the extractor returns a NotFound error and no candidate. -/
theorem c7_no_json_error :
    (∀ s : List Char, jsonValidL (trimSpace s) = false →
        (∀ m, fenceCandidate (trimSpace s) = some m → jsonValidL (trimSpace m) = false) →
        indexAnyBr (trimSpace s) = none →
        extractJSONFromText s = Except.error "no JSON object/array start found in text") ∧
    extractJSONFromText "I cannot determine this car.".data =
      Except.error "no JSON object/array start found in text" := by
  constructor
  · intro s h1 h2 h3
    rw [extract_falls_to_step3 h1 h2]
    unfold step3
    rw [h3]
  · decide

/-- Witness for the amended C7 at the example sentence. -/
theorem c7_witness :
    extractJSONFromText "I cannot determine this car.".data =
      Except.error "no JSON object/array start found in text" :=
  c7_no_json_error.1 "I cannot determine this car.".data (by decide)
    (fun m hm => by
      rw [(by decide : fenceCandidate (trimSpace "I cannot determine this car.".data) = none)] at hm
      exact Option.noConfusion hm)
    (by decide)

/-- Claim C9: every bracket-scan candidate is the trimmed substring starting
at the first occurrence of `{` or `[`; consequently the input `{oops [1,2]`,
which contains the valid JSON substring `[1,2]` at a later position, fails
with NotFound. -/
theorem c9_start_anchored :
    (∀ (s : List Char) (start : Nat) (c : List Char),
        indexAnyBr s = some start → step3 s = Except.ok c →
        ∃ e, start < e ∧ c = trimSpace ((s.drop start).take (e + 1 - start))) ∧
    jsonValidL "[1,2]".data = true ∧
    (("\x7boops [1,2]".data).drop 6).take 5 = "[1,2]".data ∧
    extractJSONFromText "\x7boops [1,2]".data =
      Except.error "couldn't extract valid JSON substring from assistant text" :=
  ⟨fun _ _ _ h1 h2 => step3_ok_shape h1 h2, by decide, by decide, by decide⟩

/-- Witness for C9's anchoring statement at a concrete successful scan. -/
theorem c9_witness :
    ∃ e, 2 < e ∧
      "\x7b\"a\":1\x7d".data =
        trimSpace ((("x \x7b\"a\":1\x7d".data).drop 2).take (e + 1 - 2)) :=
  c9_start_anchored.1 "x \x7b\"a\":1\x7d".data 2 "\x7b\"a\":1\x7d".data
    (by decide) (by decide)

/-- The shared finishing tail returns exactly one of output bytes or error. -/
theorem finishText_shape (t : List Char) :
    ((finishText t).1.isSome ∧ (finishText t).2 = none) ∨
      ((finishText t).1 = none ∧ (finishText t).2.isSome) := by
  unfold finishText
  cases hx : extractJSONFromText t with
  | error e => simp [hx]
  | ok j =>
    simp only [hx]
    cases hj : jsonDecode j with
    | none => simp [hj]
    | some v => simp [hj]

/-- Claim C8: for every envelope input, the core returns exactly one of a
successful CleanJSON byte value or a single error, mirroring the Go
`([]byte, error)` pair: never both, never neither, and on error no output
bytes are produced. -/
theorem c8_exactly_one_outcome :
    ∀ resp : List Char,
      ((extractCarJSON resp).1.isSome ∧ (extractCarJSON resp).2 = none) ∨
        ((extractCarJSON resp).1 = none ∧ (extractCarJSON resp).2.isSome) := by
  intro resp
  unfold extractCarJSON
  cases hd : jsonDecode resp with
  | none => simp [hd]
  | some v =>
    simp only [hd]
    cases ht : decodeTyped v with
    | some outs =>
      simp only [ht]
      by_cases h : typedLocate outs = []
      · simp [h]
      · simp only [h, if_false]
        exact finishText_shape _
    | none =>
      simp only [ht]
      cases v with
      | obj fs =>
        cases hw : walk (dedupRec (JValue.obj fs)) with
        | none => simp [hw]
        | some found =>
          simp only [hw]
          exact finishText_shape _
      | null => simp
      | bool b => simp
      | num lx => simp
      | str s => simp
      | arr es => simp

/-- Witness for C8 at the empty-object envelope (which takes the error side). -/
theorem c8_witness :
    ((extractCarJSON "\x7b\x7d".data).1.isSome ∧ (extractCarJSON "\x7b\x7d".data).2 = none) ∨
      ((extractCarJSON "\x7b\x7d".data).1 = none ∧ (extractCarJSON "\x7b\x7d".data).2.isSome) :=
  c8_exactly_one_outcome "\x7b\x7d".data

/-- A string with non-empty trimmed content is itself non-empty. -/
theorem ne_nil_of_trim_ne_nil {s : List Char} (h : trimSpace s ≠ []) : s ≠ [] := by
  intro hs
  exact h (by rw [hs]; rfl)

/-- The inner content loop of `extractCarJSON` returns the text of the first
part whose trimmed text is non-empty. -/
theorem firstText_eq_find (o : List (List Char × List Char)) :
    firstText o =
      ((o.find? fun p => decide (trimSpace p.2 ≠ [])).map Prod.snd).getD [] := by
  induction o with
  | nil => rfl
  | cons c rest ih =>
    by_cases h : trimSpace c.2 = []
    · rw [firstText, if_pos h, List.find?_cons_of_neg _ (by simp [h]), ih]
    · rw [firstText, if_neg h, List.find?_cons_of_pos _ (by simp [h])]
      rfl

/-- When an output item contains no usable part, `firstText` signals `[]`. -/
theorem firstText_eq_nil_iff (o : List (List Char × List Char)) :
    firstText o = [] ↔ (o.find? fun p => decide (trimSpace p.2 ≠ [])) = none := by
  rw [firstText_eq_find]
  cases hf : o.find? fun p => decide (trimSpace p.2 ≠ []) with
  | none => simp
  | some p =>
    have hp := List.find?_some hf
    simp only [decide_eq_true_eq] at hp
    simp [ne_nil_of_trim_ne_nil hp]

/-- The double loop over outputs and content parts equals a single search over
the flattened content list. -/
theorem typedLocate_eq_find (outs : List (List (List Char × List Char))) :
    typedLocate outs =
      ((outs.flatten.find? fun p => decide (trimSpace p.2 ≠ [])).map Prod.snd).getD [] := by
  induction outs with
  | nil => rfl
  | cons o rest ih =>
    rw [typedLocate, List.flatten_cons, List.find?_append]
    by_cases h : firstText o = []
    · rw [if_pos h, ih, (firstText_eq_nil_iff o).mp h, Option.none_or]
    · rw [if_neg h]
      cases hf : o.find? fun p => decide (trimSpace p.2 ≠ []) with
      | none => exact absurd ((firstText_eq_nil_iff o).mpr hf) h
      | some p =>
        rw [firstText_eq_find, hf]
        rfl

/-- Relabelling the `type` component of every content part does not change the
located text. -/
theorem firstText_map_type (f : List Char × List Char → List Char)
    (o : List (List Char × List Char)) :
    firstText (o.map fun p => (f p, p.2)) = firstText o := by
  induction o with
  | nil => rfl
  | cons c rest ih =>
    by_cases h : trimSpace c.2 = [] <;> simp [firstText, h, ih]

/-- Relabelling `type` components does not change the typed locator. -/
theorem typedLocate_map_type (f : List Char × List Char → List Char)
    (outs : List (List (List Char × List Char))) :
    typedLocate (outs.map fun o => o.map fun p => (f p, p.2)) = typedLocate outs := by
  induction outs with
  | nil => rfl
  | cons o rest ih => simp [typedLocate, firstText_map_type, ih]

/-- Claim C10: in the typed locator path, the `type` field of a content part
is ignored entirely; the fragment returned is the first content part, in
output order then content order, whose trimmed text is non-empty, and the
returned fragment is the original untrimmed text of that part.  Also, the
typed branch of the pipeline uses exactly this fragment. -/
theorem c10_typed_locator :
    (∀ outs : List (List (List Char × List Char)),
        typedLocate outs =
          ((outs.flatten.find? fun p => decide (trimSpace p.2 ≠ [])).map Prod.snd).getD []) ∧
    (∀ (f : List Char × List Char → List Char) (outs : List (List (List Char × List Char))),
        typedLocate (outs.map fun o => o.map fun p => (f p, p.2)) = typedLocate outs) ∧
    (∀ (resp : List Char) (v : JValue) (outs : List (List (List Char × List Char))),
        jsonDecode resp = some v → decodeTyped v = some outs → typedLocate outs ≠ [] →
        extractCarJSON resp = finishText (typedLocate outs)) := by
  refine ⟨typedLocate_eq_find, typedLocate_map_type, ?_⟩
  intro resp v outs h1 h2 h3
  unfold extractCarJSON
  simp [h1, h2, h3]

/-- Witness for C10: a reasoning-only part is skipped and the next part's
untrimmed text ` hi ` is located, irrespective of the `type` labels. -/
theorem c10_witness :
    typedLocate [[("reasoning".data, "   ".data)], [("output_text".data, " hi ".data)]] =
      (((([[("reasoning".data, "   ".data)],
          [("output_text".data, " hi ".data)]] : List (List (List Char × List Char))).flatten.find?
            fun p => decide (trimSpace p.2 ≠ [])).map Prod.snd).getD []) :=
  c10_typed_locator.1 [[("reasoning".data, "   ".data)], [("output_text".data, " hi ".data)]]

set_option maxRecDepth 8000

/-- Counterexample to claim C1 as stated: the envelope
`{"wrapper":{"deep":[{"note":"x"},{"text":"  {\"ok\":true}  "}]}}` parses as
JSON and the typed path yields no text, yet the pipeline does not fall back to
the generic depth-first search: the typed deserialization succeeds (Go ignores
the unknown `wrapper` key), so the locator returns the no-text error instead
of the claimed CleanJSON. -/
theorem c1_counterexample :
    extractCarJSON "\x7b\"wrapper\":\x7b\"deep\":[\x7b\"note\":\"x\"\x7d,\x7b\"text\":\"  \x7b\\\"ok\\\":true\x7d  \"\x7d]\x7d\x7d".data =
      (none, some "no output content with text found in response (maybe only reasoning entries present)") := by
  decide

/-- Claim C1 (amended): the generic depth-first search runs only when the
typed deserialization itself returns an error; an envelope whose typed
deserialization succeeds but yields no non-empty text (such as the example,
whose unknown `wrapper` key is ignored) produces the no-text error without
the generic search, whereas the same envelope with an additional non-array
`output` field makes the typed deserialization fail, after which the
depth-first search locates `"  {\"ok\":true}  "` and the pipeline returns
CleanJSON `{\n  "ok": true\n}`. -/
theorem c1_fallback_only_on_unmarshal_error :
    extractCarJSON "\x7b\"wrapper\":\x7b\"deep\":[\x7b\"note\":\"x\"\x7d,\x7b\"text\":\"  \x7b\\\"ok\\\":true\x7d  \"\x7d]\x7d\x7d".data =
      (none, some "no output content with text found in response (maybe only reasoning entries present)") ∧
    extractCarJSON "\x7b\"output\":0,\"wrapper\":\x7b\"deep\":[\x7b\"note\":\"x\"\x7d,\x7b\"text\":\"  \x7b\\\"ok\\\":true\x7d  \"\x7d]\x7d\x7d".data =
      (some "\x7b\n  \"ok\": true\n\x7d".data, none) := by
  constructor
  · decide
  · decide

mutual

/-- The short-circuiting walk returns the head of the candidate list. -/
theorem walk_eq_head : (v : JValue) → walk v = (texts v).head?
  | .null => rfl
  | .bool _ => rfl
  | .num _ => rfl
  | .str _ => rfl
  | .arr es => by rw [walk, texts]; exact walkElems_eq_head es
  | .obj fs => by rw [walk, texts]; exact walkFields_eq_head fs

/-- Field-list version of `walk_eq_head`. -/
theorem walkFields_eq_head : (l : List (List Char × JValue)) →
    walkFields l = (textsFields l).head?
  | [] => rfl
  | (k, v) :: rest => by
    rw [walkFields, textsFields, entryTexts]
    cases ha : asText k v with
    | some s => simp [ha]
    | none =>
      simp only [ha, List.nil_append]
      cases ht : texts v with
      | nil =>
        have hw : walk v = none := by rw [walk_eq_head v, ht]; rfl
        rw [hw]
        simpa using walkFields_eq_head rest
      | cons t ts =>
        have hw : walk v = some t := by rw [walk_eq_head v, ht]; rfl
        rw [hw]
        simp

/-- Element-list version of `walk_eq_head`. -/
theorem walkElems_eq_head : (l : List JValue) → walkElems l = (textsElems l).head?
  | [] => rfl
  | v :: rest => by
    rw [walkElems, textsElems]
    cases ht : texts v with
    | nil =>
      have hw : walk v = none := by rw [walk_eq_head v, ht]; rfl
      rw [hw]
      simpa using walkElems_eq_head rest
    | cons t ts =>
      have hw : walk v = some t := by rw [walk_eq_head v, ht]; rfl
      rw [hw]
      simp

end

/-- Permuting the entries of one field list permutes the collected candidate
texts. -/
theorem textsFields_perm_of_perm : ∀ {l l' : List (List Char × JValue)},
    l.Perm l' → (textsFields l).Perm (textsFields l') := by
  intro l l' h
  induction h with
  | nil => exact List.Perm.refl _
  | cons x _ ih => rw [textsFields, textsFields]; exact ih.append_left (entryTexts x)
  | swap x y l =>
    rw [textsFields, textsFields, textsFields, textsFields]
    have h1 : List.Perm ((entryTexts y ++ entryTexts x) ++ textsFields l)
        ((entryTexts x ++ entryTexts y) ++ textsFields l) :=
      List.Perm.append_right _ List.perm_append_comm
    simpa [List.append_assoc] using h1
  | trans _ _ ih1 ih2 => exact ih1.trans ih2

/-- The candidate test only looks at string values, which `Reorder` leaves
unchanged. -/
theorem asText_reorder : ∀ (k : List Char) (v w : JValue), Reorder v w →
    asText k v = asText k w := by
  intro k v w h
  cases v with
  | str s =>
    cases w with
    | str s2 => have : s = s2 := by simpa [Reorder] using h
                rw [this]
    | null => simp [Reorder] at h
    | bool b => simp [Reorder] at h
    | num lx => simp [Reorder] at h
    | arr es => simp [Reorder] at h
    | obj fs => simp [Reorder] at h
  | null => cases w <;> simp [Reorder] at h <;> rfl
  | bool b => cases w <;> simp [Reorder] at h <;> rfl
  | num lx => cases w <;> simp [Reorder] at h <;> rfl
  | arr es =>
    cases w with
    | arr es2 => rfl
    | null => simp [Reorder] at h
    | bool b => simp [Reorder] at h
    | num lx => simp [Reorder] at h
    | str s => simp [Reorder] at h
    | obj fs => simp [Reorder] at h
  | obj fs =>
    cases w with
    | obj fs2 => rfl
    | null => simp [Reorder] at h
    | bool b => simp [Reorder] at h
    | num lx => simp [Reorder] at h
    | str s => simp [Reorder] at h
    | arr es => simp [Reorder] at h

mutual

/-- A reorder of a value permutes its candidate texts. -/
theorem reorder_texts : (v w : JValue) → Reorder v w → (texts v).Perm (texts w)
  | .arr es, w, h => by
    cases w with
    | arr es2 =>
      rw [texts, texts]
      simp only [Reorder] at h
      exact reorderElems_texts es es2 h
    | null => simp [Reorder] at h
    | bool b => simp [Reorder] at h
    | num lx => simp [Reorder] at h
    | str s => simp [Reorder] at h
    | obj fs => simp [Reorder] at h
  | .obj fs, w, h => by
    cases w with
    | obj fs2 =>
      rw [texts, texts]
      simp only [Reorder] at h
      obtain ⟨fs1, h1, h2⟩ := h
      exact (reorderFields_texts fs fs1 h1).trans (textsFields_perm_of_perm h2)
    | null => simp [Reorder] at h
    | bool b => simp [Reorder] at h
    | num lx => simp [Reorder] at h
    | str s => simp [Reorder] at h
    | arr es => simp [Reorder] at h
  | .null, w, h => by
    cases w <;> simp [Reorder] at h <;> exact List.Perm.refl _
  | .bool b, w, h => by
    cases w <;> simp [Reorder] at h <;> exact List.Perm.refl _
  | .num lx, w, h => by
    cases w <;> simp [Reorder] at h <;> exact List.Perm.refl _
  | .str s, w, h => by
    cases w <;> simp [Reorder] at h <;> exact List.Perm.refl _

/-- Element-list version of `reorder_texts`. -/
theorem reorderElems_texts : (l m : List JValue) → ReorderElems l m →
    (textsElems l).Perm (textsElems m)
  | [], [], _ => List.Perm.refl _
  | [], _ :: _, h => by simp [ReorderElems] at h
  | _ :: _, [], h => by simp [ReorderElems] at h
  | v :: l, w :: m, h => by
    simp only [ReorderElems] at h
    obtain ⟨h1, h2⟩ := h
    rw [textsElems, textsElems]
    exact (reorder_texts v w h1).append (reorderElems_texts l m h2)

/-- Field-list version of `reorder_texts` (keys fixed, values reordered). -/
theorem reorderFields_texts : (l m : List (List Char × JValue)) → ReorderFields l m →
    (textsFields l).Perm (textsFields m)
  | [], [], _ => List.Perm.refl _
  | [], _ :: _, h => by simp [ReorderFields] at h
  | _ :: _, [], h => by simp [ReorderFields] at h
  | (k, v) :: l, (k2, w) :: m, h => by
    simp only [ReorderFields] at h
    obtain ⟨hk, hv, hrest⟩ := h
    subst hk
    rw [textsFields, textsFields, entryTexts, entryTexts, asText_reorder k v w hv]
    simp only [List.append_assoc]
    exact List.Perm.append_left _ ((reorder_texts v w hv).append (reorderFields_texts l m hrest))

end

mutual

/-- Every value is a reorder of itself (the identity iteration order). -/
theorem reorder_refl : (v : JValue) → Reorder v v
  | .null => rfl
  | .bool _ => rfl
  | .num _ => rfl
  | .str _ => rfl
  | .arr es => reorderElems_refl es
  | .obj fs => ⟨fs, reorderFields_refl fs, List.Perm.refl fs⟩

/-- Reflexivity for element lists. -/
theorem reorderElems_refl : (l : List JValue) → ReorderElems l l
  | [] => trivial
  | v :: l => ⟨reorder_refl v, reorderElems_refl l⟩

/-- Reflexivity for field lists. -/
theorem reorderFields_refl : (l : List (List Char × JValue)) → ReorderFields l l
  | [] => trivial
  | (_, v) :: l => ⟨rfl, reorder_refl v, reorderFields_refl l⟩

end

/-- Counterexample to claim C2 as stated: Go does not iterate maps in
insertion order — the iteration order is unspecified — so two admissible runs
of the generic walk over the envelope
`{"a":{"text":"A"},"b":{"text":"B"}}` (one visiting `a` first, one visiting
`b` first, both allowed by the `Reorder` relation) return different text
fragments. -/
theorem c2_counterexample :
    Reorder
      (JValue.obj [("a".data, .obj [("text".data, .str "A".data)]),
                   ("b".data, .obj [("text".data, .str "B".data)])])
      (JValue.obj [("b".data, .obj [("text".data, .str "B".data)]),
                   ("a".data, .obj [("text".data, .str "A".data)])]) ∧
    walk (JValue.obj [("a".data, .obj [("text".data, .str "A".data)]),
                      ("b".data, .obj [("text".data, .str "B".data)])]) = some "A".data ∧
    walk (JValue.obj [("b".data, .obj [("text".data, .str "B".data)]),
                      ("a".data, .obj [("text".data, .str "A".data)])]) = some "B".data := by
  refine ⟨?_, by decide, by decide⟩
  simp only [Reorder]
  exact ⟨_, reorderFields_refl _, List.Perm.swap _ _ []⟩

/-- Claim C2 (amended): within a run, sequence elements are visited in natural
order and the search halts on the first hit, but mapping entries are visited
in Go's unspecified map iteration order, not insertion order; two runs are
guaranteed to return the identical fragment only when the envelope holds at
most one non-empty `text` entry, and every run agrees then. -/
theorem c2_walk_deterministic_iff_unique :
    ∀ (v v1 v2 : JValue), Reorder v v1 → Reorder v v2 →
      (texts v).length ≤ 1 → walk v1 = walk v2 := by
  intro v v1 v2 h1 h2 hlen
  have p1 := reorder_texts v v1 h1
  have p2 := reorder_texts v v2 h2
  rw [walk_eq_head, walk_eq_head]
  cases htv : texts v with
  | nil =>
    rw [htv] at p1 p2
    rw [p1.symm.eq_nil, p2.symm.eq_nil]
  | cons t ts =>
    cases ts with
    | nil =>
      rw [htv] at p1 p2
      rw [List.perm_singleton.mp p1.symm, List.perm_singleton.mp p2.symm]
    | cons t2 ts2 =>
      rw [htv] at hlen
      simp at hlen

/-- Witness for the amended C2: an envelope with a single `text` candidate and
two different admissible iteration orders of its top-level mapping give the
same walk result. -/
theorem c2_witness :
    walk (JValue.obj [("k".data, .str "x".data), ("text".data, .str "T".data)]) =
      walk (JValue.obj [("text".data, .str "T".data), ("k".data, .str "x".data)]) :=
  c2_walk_deterministic_iff_unique
    (JValue.obj [("k".data, .str "x".data), ("text".data, .str "T".data)])
    (JValue.obj [("k".data, .str "x".data), ("text".data, .str "T".data)])
    (JValue.obj [("text".data, .str "T".data), ("k".data, .str "x".data)])
    (reorder_refl _)
    (⟨_, reorderFields_refl _, List.Perm.swap _ _ []⟩)
    (by decide)
